import Mathlib

/-!
Shallow embedding of the AlgoTradingStrategies trade-execution pipeline:
the risk feedback loop, position resizing, correlation and execution-rule
stages, the orchestrator, and the SampleBar.js command-line entry point.
Quantities are signed integers, risk values are exact rationals, and
Python `int()` conversion is modelled as truncation toward zero.
-/

namespace AlgoTrading

/-- Python `int(q)` for a rational `q`: truncation toward zero. -/
def truncQ (q : ℚ) : ℤ := if 0 ≤ q then ⌊q⌋ else ⌈q⌉

/-- Trade side, the `type` field of a `Trade` in the source. -/
inductive Side where
  | buy : Side
  | sell : Side
deriving DecidableEq, Repr

/-- A single proposed trade: `Trade(symbol=..., quantity=..., type=...)`. -/
structure Trade where
  symbol : String
  quantity : ℤ
  side : Side
deriving DecidableEq, Repr

/-- `TradeProposal(trades=..., confidence=..., reasoning=...)`. -/
structure TradeProposal where
  trades : List Trade
  confidence : ℚ
  reasoning : String
deriving DecidableEq, Repr

/-- `RiskTolerance(portfolio_risk=..., position_risk=..., var=...)`. -/
structure RiskTolerance where
  portfolio_risk : ℚ
  position_risk : ℚ
  var : ℚ
deriving DecidableEq, Repr

/-- A risk assessment produced by `RiskManagementAgent.analyze_risk`:
aggregate portfolio risk, a per-symbol risk table (the `position_risks`
dict) and the value at risk. -/
structure RiskAssessment where
  portfolio_risk : ℚ
  position_risks : List (String × ℚ)
  var : ℚ
deriving DecidableEq, Repr

/-- The `max_position_risk` attribute read by `_is_risk_acceptable`:
the largest per-position risk in the assessment (0 for an empty table). -/
def RiskAssessment.maxPositionRisk (ra : RiskAssessment) : ℚ :=
  (ra.position_risks.map Prod.snd).foldr max 0

/-- `RiskFeedbackConfig(max_iterations=..., risk_tolerance=..., resize_threshold=...)`. -/
structure RiskFeedbackConfig where
  max_iterations : ℕ
  risk_tolerance : RiskTolerance
  resize_threshold : ℚ
deriving DecidableEq, Repr

/-- `RiskFeedbackLoop._is_risk_acceptable`: portfolio risk, maximum
position risk and value at risk must all be within tolerance. -/
def isRiskAcceptable (tol : RiskTolerance) (ra : RiskAssessment) : Bool :=
  decide (ra.portfolio_risk ≤ tol.portfolio_risk) &&
  decide (ra.maxPositionRisk ≤ tol.position_risk) &&
  decide (ra.var ≤ tol.var)

/-- `RiskFeedbackLoop._calculate_risk_adjustments`: for every position
whose risk exceeds the tolerance, a scale factor
`max(tolerance / risk, resize_threshold)`. -/
def calculateRiskAdjustments (tol : RiskTolerance) (resize_threshold : ℚ)
    (ra : RiskAssessment) : List (String × ℚ) :=
  ra.position_risks.filterMap fun pr =>
    if tol.position_risk < pr.2 then
      some (pr.1, max (tol.position_risk / pr.2) resize_threshold)
    else none

/-- First scale factor recorded for a symbol in an adjustments table. -/
def lookupFactor (adj : List (String × ℚ)) (s : String) : Option ℚ :=
  (adj.find? fun a => a.1 = s).map Prod.snd

/-- Modelled from the spec: `RiskFeedbackLoop._apply_risk_adjustments` has
no body anywhere in the repository (`process` only calls it), so it is
taken from the spec's loop pseudocode
`current_proposal = scale_quantities(current_proposal, adjustments)` with
the annotation that quantities truncate toward zero: every trade whose
symbol has an adjustment factor gets its quantity multiplied by that
factor and truncated toward zero; all other trades are unchanged. -/
def applyRiskAdjustments (p : TradeProposal) (adj : List (String × ℚ)) :
    TradeProposal :=
  { p with trades := p.trades.map fun t =>
      match lookupFactor adj t.symbol with
      | some f => { t with quantity := truncQ ((t.quantity : ℚ) * f) }
      | none => t }

/-- One non-accepting iteration of the risk loop body: compute the
adjustments for the current assessment and apply them. -/
def riskLoopStep (tol : RiskTolerance) (rt : ℚ)
    (analyze : TradeProposal → RiskAssessment) (p : TradeProposal) :
    TradeProposal :=
  applyRiskAdjustments p (calculateRiskAdjustments tol rt (analyze p))

/-- The `while iteration < self.max_iterations` loop of
`RiskFeedbackLoop.process`, by remaining iteration budget: analyze the
current proposal, stop (`break`) when acceptable, otherwise adjust and
continue; when the budget is exhausted the current proposal is returned. -/
def processAux (tol : RiskTolerance) (rt : ℚ)
    (analyze : TradeProposal → RiskAssessment) :
    ℕ → TradeProposal → TradeProposal
  | 0, p => p
  | n + 1, p =>
      if isRiskAcceptable tol (analyze p) then p
      else processAux tol rt analyze n (riskLoopStep tol rt analyze p)

/-- `RiskFeedbackLoop.process`: run the bounded feedback loop starting
from the initial proposal.  `analyze` stands for
`self.risk_agent.analyze_risk(·, state)` with the cycle's fixed state. -/
def process (cfg : RiskFeedbackConfig)
    (analyze : TradeProposal → RiskAssessment) (p : TradeProposal) :
    TradeProposal :=
  processAux cfg.risk_tolerance cfg.resize_threshold analyze
    cfg.max_iterations p

/-- Configuration read by `PositionResizingAgent._calculate_new_size`:
risk limits and the integer share floor `min_position_size`. -/
structure ResizeConfig where
  max_position_risk : ℚ
  max_portfolio_risk : ℚ
  min_position_size : ℤ
deriving DecidableEq, Repr

/-- The size computed by `_calculate_new_size` before its final
`max(new_size, self.config.min_position_size)`: proportional reduction
when the position risk exceeds the limit, else a portfolio-level
reduction when portfolio risk exceeds its limit, else unchanged;
Python `int(...)` truncates toward zero. -/
def rawNewSize (cfg : ResizeConfig) (current_size : ℤ)
    (position_risk portfolio_risk : ℚ) : ℤ :=
  if cfg.max_position_risk < position_risk then
    truncQ ((current_size : ℚ) * (cfg.max_position_risk / position_risk))
  else if cfg.max_portfolio_risk < portfolio_risk then
    truncQ ((current_size : ℚ) * (cfg.max_portfolio_risk / portfolio_risk))
  else current_size

/-- `PositionResizingAgent._calculate_new_size`: the raw risk-reduced
size, floored at `min_position_size`. -/
def calculateNewSize (cfg : ResizeConfig) (current_size : ℤ)
    (position_risk portfolio_risk : ℚ) : ℤ :=
  max (rawNewSize cfg current_size position_risk portfolio_risk)
    cfg.min_position_size

/-- Per-symbol risk lookup `risk_assessment.position_risks[symbol]`; a
missing key raises in Python, hence `Option`. -/
def getPositionRisk (ra : RiskAssessment) (s : String) : Option ℚ :=
  (ra.position_risks.find? fun pr => pr.1 = s).map Prod.snd

/-- The trade-by-trade loop of `PositionResizingAgent.resize_positions`:
each trade is resized via `_calculate_new_size` against its position
risk and the portfolio risk; fails (Python `KeyError`) when a trade's
symbol has no risk entry. -/
def resizeTrades (cfg : ResizeConfig) (ra : RiskAssessment) :
    List Trade → Option (List Trade)
  | [] => some []
  | t :: ts => do
      let r ← getPositionRisk ra t.symbol
      let rest ← resizeTrades cfg ra ts
      let q := calculateNewSize cfg t.quantity r ra.portfolio_risk
      pure ({ t with quantity := q } :: rest)

/-- `PositionResizingAgent.resize_positions` over a whole proposal. -/
def resizePositions (cfg : ResizeConfig) (ra : RiskAssessment)
    (p : TradeProposal) : Option TradeProposal :=
  (resizeTrades cfg ra p.trades).map fun ts => { p with trades := ts }

/-- Total absolute proposed quantity of a proposal. -/
def totalAbsQuantity (p : TradeProposal) : ℤ :=
  (p.trades.map fun t => |t.quantity|).sum

/-- Order types of the execution-rules stage. -/
inductive OrderType where
  | limit : OrderType
  | market : OrderType
  | stop_limit : OrderType
  | stop_market : OrderType
deriving DecidableEq, Repr

/-- Time-in-force values of the execution-rules stage. -/
inductive TimeInForce where
  | day : TimeInForce
  | gtc : TimeInForce
  | ioc : TimeInForce
  | fok : TimeInForce
deriving DecidableEq, Repr

/-- A finalized order handed to the order gateway. -/
structure Order where
  symbol : String
  quantity : ℤ
  side : Side
  order_type : OrderType
  price : Option ℚ
  time_in_force : TimeInForce
deriving DecidableEq, Repr

/-- `ExecutionRulesConfig`. -/
structure ExecutionRulesConfig where
  default_order_type : OrderType
  time_in_force : TimeInForce
  price_threshold : ℚ
  market_impact_limit : ℚ
deriving DecidableEq, Repr

/-- Modelled from the spec: `ExecutionRulesAgent.apply_rules` has only a
docstring interface in the repository (no body), so the mapping is taken
from the spec's execution-rules stage: a trade with zero resulting
quantity is dropped and produces no order; otherwise the trade becomes an
order with the configured order type and time-in-force, downgraded to
LIMIT with `price = reference_price * (1 ± price_threshold)` (sign per
side) when the market-impact estimate `|quantity| * impact coefficient`
exceeds `market_impact_limit`. -/
def applyRulesTrade (cfg : ExecutionRulesConfig) (refPrice impact : String → ℚ)
    (t : Trade) : Option Order :=
  if t.quantity = 0 then none
  else if cfg.market_impact_limit < (|t.quantity| : ℚ) * impact t.symbol then
    some { symbol := t.symbol, quantity := |t.quantity|, side := t.side,
           order_type := OrderType.limit,
           price := some (refPrice t.symbol *
             (1 + (match t.side with
                   | Side.buy => cfg.price_threshold
                   | Side.sell => -cfg.price_threshold))),
           time_in_force := cfg.time_in_force }
  else
    some { symbol := t.symbol, quantity := |t.quantity|, side := t.side,
           order_type := cfg.default_order_type,
           price := if cfg.default_order_type = OrderType.limit then
               some (refPrice t.symbol) else none,
           time_in_force := cfg.time_in_force }

/-- `ExecutionRulesAgent.apply_rules` over a whole proposal. -/
def applyRules (cfg : ExecutionRulesConfig) (refPrice impact : String → ℚ)
    (p : TradeProposal) : List Order :=
  p.trades.filterMap (applyRulesTrade cfg refPrice impact)

/-- `CorrelationConfig(max_correlation=..., adjustment_factor=...)`. -/
structure CorrelationConfig where
  max_correlation : ℚ
  adjustment_factor : ℚ
deriving DecidableEq, Repr

/-- All unordered pairs of a symbol list, first components in list
order. -/
def symbolPairs : List String → List (String × String)
  | [] => []
  | s :: rest => (rest.map fun t => (s, t)) ++ symbolPairs rest

/-- Quantity proposed for a symbol (0 when the symbol has no trade). -/
def qtyOf (p : TradeProposal) (s : String) : ℤ :=
  match p.trades.find? fun t => t.symbol = s with
  | some t => t.quantity
  | none => 0

/-- Modelled from the spec: the leg of a breaching pair that gets scaled —
the smaller-confidence side; when both legs have equal confidence, the
leg with the larger absolute quantity. -/
def scaledLeg (conf : String → ℚ) (qty : String → ℤ) (a b : String) :
    String :=
  if conf a < conf b then a
  else if conf b < conf a then b
  else if |qty a| < |qty b| then b else a

/-- Modelled from the spec: `CorrelationAgent.analyze_correlations` has
only a docstring interface in the repository (no body), so it is taken
from the spec's correlation stage: for every pair of proposal symbols
with `|correlation| > max_correlation`, record one scale factor
`adjustment_factor` for the smaller-confidence leg (applied once per
pair per call). -/
def analyzeCorrelations (cfg : CorrelationConfig)
    (corr : String → String → ℚ) (conf : String → ℚ) (p : TradeProposal) :
    List (String × ℚ) :=
  (symbolPairs (p.trades.map Trade.symbol)).filterMap fun ab =>
    if cfg.max_correlation < |corr ab.1 ab.2| then
      some (scaledLeg conf (qtyOf p) ab.1 ab.2, cfg.adjustment_factor)
    else none

/-- Modelled from the spec: `CorrelationAgent.adjust_trades` has no body
in the repository; per the spec each recorded adjustment scales its
symbol's quantity once (factors for the same symbol compose), integer
quantities truncating toward zero. -/
def corrAdjustTrades (p : TradeProposal) (adj : List (String × ℚ)) :
    TradeProposal :=
  { p with trades := p.trades.map fun t =>
      { t with quantity := truncQ ((t.quantity : ℚ) *
          ((adj.filter fun a => a.1 = t.symbol).map Prod.snd).prod) } }

/-- `TradeExecutionOrchestrator.execute_trades`: initialize state, get
the initial proposal from the position agent, run the risk feedback
loop, apply correlation adjustments, apply execution rules, return the
orders.  Each agent call may raise (propagating out of the method), so
stages are `Except`-valued parameters over an abstract state `σ`. -/
def executeTrades {ε σ Adj : Type}
    (propose : σ → Except ε TradeProposal)
    (riskProcess : TradeProposal → σ → Except ε TradeProposal)
    (analyzeCorr : TradeProposal → σ → Except ε Adj)
    (corrAdjust : TradeProposal → Adj → Except ε TradeProposal)
    (applyRulesStage : TradeProposal → σ → Except ε (List Order))
    (st : σ) : Except ε (List Order) :=
  match propose st with
  | Except.error er => Except.error er
  | Except.ok initial =>
    match riskProcess initial st with
    | Except.error er => Except.error er
    | Except.ok afterRisk =>
      match analyzeCorr afterRisk st with
      | Except.error er => Except.error er
      | Except.ok corrAdj =>
        match corrAdjust afterRisk corrAdj with
        | Except.error er => Except.error er
        | Except.ok finalProposal => applyRulesStage finalProposal st

/-- Orders observable by the caller of `execute_trades`: the returned
list on success, none when the cycle aborts with an exception. -/
def emittedOrders {ε : Type} : Except ε (List Order) → List Order
  | Except.ok l => l
  | Except.error _ => []

/-- The action taken by `main` in `SampleBar.js` as a function of
`process.argv`: print the usage strings and return, or connect to the
server at `uri` and either list systems (one argument) or log in and
request tick bars (six arguments). -/
inductive MainAction where
  | usage : MainAction
  | listSystemsAt : String → MainAction
  | tickBarSessionAt : String → String → String → String → String →
      String → MainAction
deriving DecidableEq, Repr

/-- `main` of `SampleBar.js`: `args = process.argv.slice(2)`; connect and
proceed when `args.length === 1 || args.length === 6`, otherwise print
`USAGE` and `USAGE_2` and return. -/
def mainStep (argv : List String) : MainAction :=
  let args := argv.drop 2
  if args.length = 1 then
    MainAction.listSystemsAt (args.headD "")
  else if args.length = 6 then
    MainAction.tickBarSessionAt (args.headD "") ((args.drop 1).headD "")
      ((args.drop 2).headD "") ((args.drop 3).headD "")
      ((args.drop 4).headD "") ((args.drop 5).headD "")
  else MainAction.usage

/-- Whether an action of `main` opens a WebSocket connection
(`connectToRithmic` is called in every non-usage branch, before login or
tick-bar requests). -/
def attemptsConnection : MainAction → Bool
  | MainAction.usage => false
  | MainAction.listSystemsAt _ => true
  | MainAction.tickBarSessionAt _ _ _ _ _ _ => true

/-! Concrete fixtures used by scenario theorems and witnesses. -/

/-- The Scenario B proposal: buy 100 shares of AAPL. -/
def propB : TradeProposal := ⟨[⟨"AAPL", 100, Side.buy⟩], 17/20, "initial"⟩

/-- The default risk tolerance: portfolio 0.15, position 0.05, VaR 0.02. -/
def tolB : RiskTolerance := ⟨3/20, 1/20, 1/50⟩

/-- Scenario B assessment: AAPL position risk 0.07 exceeds the 0.05
limit; portfolio risk 0.12 and VaR 0.01 are within limits. -/
def raB : RiskAssessment := ⟨3/25, [("AAPL", 7/100)], 1/100⟩

/-- An assessment with every metric within the default tolerance. -/
def raGoodB : RiskAssessment := ⟨1/10, [("AAPL", 1/25)], 1/100⟩

/-! Arithmetic helper lemmas. -/

theorem truncQ_intCast (n : ℤ) : truncQ (n : ℚ) = n := by
  unfold truncQ
  split <;> simp

theorem foldr_max_le_iff {l : List ℚ} {t : ℚ} (ht : 0 ≤ t) :
    l.foldr max 0 ≤ t ↔ ∀ x ∈ l, x ≤ t := by
  induction l with
  | nil => simpa using ht
  | cons a l ih => simp [List.foldr_cons, max_le_iff, ih]

/-- C2: the risk feedback loop accepts the current proposal exactly when
portfolio risk, every per-symbol position risk, and value at risk are
all within their limits; when acceptance holds the loop stops with the
current proposal, and when any of the three fails a further adjustment
iteration is performed while the iteration budget lasts. -/
theorem riskLoop_accepts_iff_limits (tol : RiskTolerance) (rt : ℚ)
    (analyze : TradeProposal → RiskAssessment) (n : ℕ) (p : TradeProposal)
    (hpos : 0 ≤ tol.position_risk) :
    (isRiskAcceptable tol (analyze p) = true ↔
      ((analyze p).portfolio_risk ≤ tol.portfolio_risk ∧
       (∀ pr ∈ (analyze p).position_risks, pr.2 ≤ tol.position_risk) ∧
       (analyze p).var ≤ tol.var)) ∧
    (isRiskAcceptable tol (analyze p) = true →
      processAux tol rt analyze (n + 1) p = p) ∧
    (isRiskAcceptable tol (analyze p) = false →
      processAux tol rt analyze (n + 1) p =
        processAux tol rt analyze n (riskLoopStep tol rt analyze p)) := by
  refine ⟨?_, ?_, ?_⟩
  · unfold isRiskAcceptable RiskAssessment.maxPositionRisk
    rw [Bool.and_eq_true, Bool.and_eq_true]
    simp only [decide_eq_true_eq]
    rw [foldr_max_le_iff hpos]
    constructor
    · rintro ⟨⟨h1, h2⟩, h3⟩
      exact ⟨h1, fun pr hpr => h2 _ (List.mem_map_of_mem _ hpr), h3⟩
    · rintro ⟨h1, h2, h3⟩
      refine ⟨⟨h1, ?_⟩, h3⟩
      intro x hx
      rcases List.mem_map.mp hx with ⟨pr, hpr, rfl⟩
      exact h2 pr hpr
  · intro h
    simp [processAux, h]
  · intro h
    simp [processAux, h]

theorem riskLoop_accepts_iff_limits_witness :
    ((0 : ℚ) ≤ tolB.position_risk) ∧
    ((isRiskAcceptable tolB raGoodB = true ↔
       (raGoodB.portfolio_risk ≤ tolB.portfolio_risk ∧
        (∀ pr ∈ raGoodB.position_risks, pr.2 ≤ tolB.position_risk) ∧
        raGoodB.var ≤ tolB.var)) ∧
     (isRiskAcceptable tolB raGoodB = true →
       processAux tolB (1/2) (fun _ => raGoodB) 3 propB = propB) ∧
     (isRiskAcceptable tolB raGoodB = false →
       processAux tolB (1/2) (fun _ => raGoodB) 3 propB =
         processAux tolB (1/2) (fun _ => raGoodB) 2
           (riskLoopStep tolB (1/2) (fun _ => raGoodB) propB))) :=
  ⟨by norm_num [tolB],
   riskLoop_accepts_iff_limits tolB (1/2) (fun _ => raGoodB) 2 propB
     (by norm_num [tolB])⟩

/-- C9: when the very first risk assessment of the initial proposal is
already acceptable, `RiskFeedbackLoop.process` returns the initial
proposal unchanged. -/
theorem process_accepts_initial (cfg : RiskFeedbackConfig)
    (analyze : TradeProposal → RiskAssessment) (p : TradeProposal)
    (h : isRiskAcceptable cfg.risk_tolerance (analyze p) = true) :
    process cfg analyze p = p := by
  unfold process
  cases cfg.max_iterations with
  | zero => rfl
  | succ n => simp [processAux, h]

theorem process_accepts_initial_witness :
    isRiskAcceptable (RiskFeedbackConfig.mk 3 tolB (1/2)).risk_tolerance
      ((fun _ => raGoodB) propB) = true ∧
    process ⟨3, tolB, 1/2⟩ (fun _ => raGoodB) propB = propB := by
  have h : isRiskAcceptable tolB raGoodB = true := by
    simp [isRiskAcceptable, raGoodB, tolB, RiskAssessment.maxPositionRisk]
    norm_num
  exact ⟨h, process_accepts_initial ⟨3, tolB, 1/2⟩ (fun _ => raGoodB) propB h⟩

/-- C6: for the Scenario B proposal (100 AAPL shares,
`position_risk = 0.07`, `max_position_risk = 0.05`,
`resize_threshold = 0.5`), one iteration of the risk loop computes the
scale factor `max(0.05/0.07, 0.5) = 5/7` and truncation toward zero
yields a new quantity of exactly 71 shares. -/
theorem scenarioB_one_iteration_71 :
    calculateRiskAdjustments tolB (1/2) raB = [("AAPL", 5/7)] ∧
    (5 : ℚ) / 7 = max ((1/20 : ℚ) / (7/100)) (1/2) ∧
    process ⟨1, tolB, 1/2⟩ (fun _ => raB) propB =
      ⟨[⟨"AAPL", 71, Side.buy⟩], 17/20, "initial"⟩ := by
  refine ⟨?_, by norm_num, ?_⟩
  · simp only [calculateRiskAdjustments, raB, tolB, List.filterMap]
    norm_num
  · simp only [process, processAux, riskLoopStep, isRiskAcceptable,
      RiskAssessment.maxPositionRisk, calculateRiskAdjustments,
      applyRiskAdjustments, lookupFactor, truncQ, raB, tolB, propB,
      List.filterMap, List.map, List.find?, List.foldr]
    norm_num

/-- C10: `SampleBar.js main` prints the usage strings and attempts no
connection exactly when the argument count after the node and script
names is neither 1 nor 6; a connection is attempted exactly for argument
counts 1 and 6. -/
theorem sampleBar_usage_iff (argv : List String) :
    (mainStep argv = MainAction.usage ↔
      ¬((argv.drop 2).length = 1 ∨ (argv.drop 2).length = 6)) ∧
    (attemptsConnection (mainStep argv) = true ↔
      ((argv.drop 2).length = 1 ∨ (argv.drop 2).length = 6)) := by
  by_cases h1 : (argv.drop 2).length = 1 <;>
    by_cases h6 : (argv.drop 2).length = 6 <;>
      simp_all [mainStep, attemptsConnection]

/-- An assessment whose value at risk always breaches the default VaR
limit while no per-position risk exceeds its limit: the loop never
accepts it and computes an empty adjustment table. -/
def raStuck : RiskAssessment := ⟨0, [], 1⟩

theorem processAux_exhausts (tol : RiskTolerance) (rt : ℚ)
    (analyze : TradeProposal → RiskAssessment)
    (h : ∀ q, isRiskAcceptable tol (analyze q) = false) :
    ∀ (n : ℕ) (p : TradeProposal),
      processAux tol rt analyze n p = (riskLoopStep tol rt analyze)^[n] p := by
  intro n
  induction n with
  | zero => intro p; rfl
  | succ m ih =>
      intro p
      rw [Function.iterate_succ_apply]
      simp only [processAux, h p, Bool.false_eq_true, if_false]
      exact ih (riskLoopStep tol rt analyze p)

/-- C1 counterexample: with an assessment that never satisfies the
acceptance predicate (VaR permanently above its limit) and an empty
adjustment table, `process` with `max_iterations = 3` returns the bare
initial `TradeProposal` — a value identical to the one returned for an
immediately-converging assessment.  The code's return value carries no
`converged` flag and no `RiskNotConvergedError`: non-convergence is
silently dropped, not reported. -/
theorem riskLoop_nonconvergence_unreported :
    isRiskAcceptable tolB raStuck = false ∧
    process ⟨3, tolB, 1/2⟩ (fun _ => raStuck) propB = propB ∧
    isRiskAcceptable tolB raGoodB = true ∧
    process ⟨3, tolB, 1/2⟩ (fun _ => raGoodB) propB = propB := by
  have hstuck : isRiskAcceptable tolB raStuck = false := by
    simp [isRiskAcceptable, raStuck, tolB, RiskAssessment.maxPositionRisk]
    norm_num
  have hgood : isRiskAcceptable tolB raGoodB = true := by
    simp [isRiskAcceptable, raGoodB, tolB, RiskAssessment.maxPositionRisk]
    norm_num
  refine ⟨hstuck, ?_, hgood, ?_⟩
  · have hstep : riskLoopStep tolB (1/2) (fun _ => raStuck) propB = propB := by
      simp [riskLoopStep, calculateRiskAdjustments, raStuck,
        applyRiskAdjustments, lookupFactor, propB]
    simp only [process, processAux, hstuck, Bool.false_eq_true, if_false,
      hstep]
  · simp only [process, processAux, hgood, if_true]

/-- C1 amended: when the acceptance predicate never holds,
`RiskFeedbackLoop.process` runs all `max_iterations` adjustment
iterations and returns the best-effort last-iteration proposal, and
only that proposal — no `converged` flag and no `RiskNotConvergedError`
accompany it. -/
theorem process_exhausts_returns_last_iterate (cfg : RiskFeedbackConfig)
    (analyze : TradeProposal → RiskAssessment) (p : TradeProposal)
    (h : ∀ q, isRiskAcceptable cfg.risk_tolerance (analyze q) = false) :
    process cfg analyze p =
      (riskLoopStep cfg.risk_tolerance cfg.resize_threshold
        analyze)^[cfg.max_iterations] p := by
  unfold process
  exact processAux_exhausts cfg.risk_tolerance cfg.resize_threshold analyze h
    cfg.max_iterations p

theorem process_exhausts_returns_last_iterate_witness :
    (∀ q : TradeProposal, isRiskAcceptable
      (RiskFeedbackConfig.mk 3 tolB (1/2)).risk_tolerance
      ((fun _ => raStuck) q) = false) ∧
    process ⟨3, tolB, 1/2⟩ (fun _ => raStuck) propB =
      (riskLoopStep tolB (1/2) (fun _ => raStuck))^[3] propB := by
  have h : ∀ q : TradeProposal, isRiskAcceptable tolB raStuck = false := by
    intro q
    simp [isRiskAcceptable, raStuck, tolB, RiskAssessment.maxPositionRisk]
    norm_num
  exact ⟨h, process_exhausts_returns_last_iterate ⟨3, tolB, 1/2⟩
    (fun _ => raStuck) propB h⟩

/-! Position-resizing fixtures and lemmas. -/

/-- Resizing configuration with a 50-share `min_position_size` floor. -/
def resizeCfg : ResizeConfig := ⟨1/20, 3/20, 50⟩

/-- A 10-share proposal, below the 50-share floor. -/
def propSmall : TradeProposal := ⟨[⟨"AAPL", 10, Side.buy⟩], 1, "s"⟩

/-- Assessment whose VaR breaches its limit while the position and
portfolio risks are within bounds. -/
def raSmall : RiskAssessment := ⟨1/10, [("AAPL", 1/25)], 1⟩

theorem truncQ_nonneg {x : ℚ} (h : 0 ≤ x) : 0 ≤ truncQ x := by
  unfold truncQ
  rw [if_pos h]
  exact Int.floor_nonneg.mpr h

theorem truncQ_le_intCast {x : ℚ} {q : ℤ} (hx : 0 ≤ x) (h : x ≤ (q : ℚ)) :
    truncQ x ≤ q := by
  unfold truncQ
  rw [if_pos hx]
  calc ⌊x⌋ ≤ ⌊(q : ℚ)⌋ := Int.floor_mono h
    _ = q := Int.floor_intCast q

theorem rawNewSize_le {cfg : ResizeConfig} {q : ℤ} {pr por : ℚ}
    (hpos : 0 ≤ cfg.max_position_risk) (hport : 0 ≤ cfg.max_portfolio_risk)
    (hq : 0 ≤ q) : rawNewSize cfg q pr por ≤ q := by
  have hq' : (0 : ℚ) ≤ (q : ℚ) := by exact_mod_cast hq
  unfold rawNewSize
  split
  case isTrue h =>
    have hpr : 0 < pr := lt_of_le_of_lt hpos h
    apply truncQ_le_intCast
    · exact mul_nonneg hq' (div_nonneg hpos hpr.le)
    · exact mul_le_of_le_one_right hq' ((div_le_one hpr).mpr h.le)
  case isFalse h1 =>
    split
    case isTrue h =>
      have hpor : 0 < por := lt_of_le_of_lt hport h
      apply truncQ_le_intCast
      · exact mul_nonneg hq' (div_nonneg hport hpor.le)
      · exact mul_le_of_le_one_right hq' ((div_le_one hpor).mpr h.le)
    case isFalse h2 => exact le_refl q

theorem calculateNewSize_le {cfg : ResizeConfig} {q : ℤ} {pr por : ℚ}
    (hpos : 0 ≤ cfg.max_position_risk) (hport : 0 ≤ cfg.max_portfolio_risk)
    (hmin : 0 ≤ cfg.min_position_size) (hq : cfg.min_position_size ≤ q) :
    calculateNewSize cfg q pr por ≤ q :=
  max_le (rawNewSize_le hpos hport (hmin.trans hq)) hq

theorem min_le_calculateNewSize (cfg : ResizeConfig) (q : ℤ) (pr por : ℚ) :
    cfg.min_position_size ≤ calculateNewSize cfg q pr por :=
  le_max_right _ _


theorem resizeTrades_length (cfg : ResizeConfig) (ra : RiskAssessment) :
    ∀ (ts ts' : List Trade), resizeTrades cfg ra ts = some ts' →
      ts'.length = ts.length := by
  intro ts
  induction ts with
  | nil =>
      intro ts' h
      simp only [resizeTrades, Option.some.injEq] at h
      subst h
      rfl
  | cons t ts ih =>
      intro ts' h
      cases hr : getPositionRisk ra t.symbol with
      | none => simp [resizeTrades, hr] at h
      | some r =>
          cases hrest : resizeTrades cfg ra ts with
          | none => simp [resizeTrades, hr, hrest] at h
          | some rest =>
              simp [resizeTrades, hr, hrest] at h
              subst h
              simp [ih rest hrest]

theorem resizeTrades_min_bound (cfg : ResizeConfig) (ra : RiskAssessment) :
    ∀ (ts ts' : List Trade), resizeTrades cfg ra ts = some ts' →
      ∀ t ∈ ts', cfg.min_position_size ≤ t.quantity := by
  intro ts
  induction ts with
  | nil =>
      intro ts' h
      simp only [resizeTrades, Option.some.injEq] at h
      subst h
      intro t ht
      simp at ht
  | cons t ts ih =>
      intro ts' h
      cases hr : getPositionRisk ra t.symbol with
      | none => simp [resizeTrades, hr] at h
      | some r =>
          cases hrest : resizeTrades cfg ra ts with
          | none => simp [resizeTrades, hr, hrest] at h
          | some rest =>
              simp [resizeTrades, hr, hrest] at h
              subst h
              intro u hu
              rcases List.mem_cons.mp hu with rfl | hu
              · exact min_le_calculateNewSize cfg t.quantity r
                  ra.portfolio_risk
              · exact ih rest hrest u hu

theorem resizeTrades_sum_le (cfg : ResizeConfig) (ra : RiskAssessment)
    (hpos : 0 ≤ cfg.max_position_risk) (hport : 0 ≤ cfg.max_portfolio_risk)
    (hmin : 0 ≤ cfg.min_position_size) :
    ∀ (ts ts' : List Trade), resizeTrades cfg ra ts = some ts' →
      (∀ t ∈ ts, cfg.min_position_size ≤ t.quantity) →
      (ts'.map fun t => |t.quantity|).sum ≤
        (ts.map fun t => |t.quantity|).sum := by
  intro ts
  induction ts with
  | nil =>
      intro ts' h _
      simp only [resizeTrades, Option.some.injEq] at h
      subst h
      exact le_refl _
  | cons t ts ih =>
      intro ts' h hfloor
      cases hr : getPositionRisk ra t.symbol with
      | none => simp [resizeTrades, hr] at h
      | some r =>
          cases hrest : resizeTrades cfg ra ts with
          | none => simp [resizeTrades, hr, hrest] at h
          | some rest =>
              simp [resizeTrades, hr, hrest] at h
              subst h
              simp only [List.map_cons, List.sum_cons]
              have hq : cfg.min_position_size ≤ t.quantity :=
                hfloor t (List.mem_cons_self t ts)
              have hle : calculateNewSize cfg t.quantity r ra.portfolio_risk ≤
                  t.quantity := calculateNewSize_le hpos hport hmin hq
              have hge : 0 ≤ calculateNewSize cfg t.quantity r
                  ra.portfolio_risk :=
                hmin.trans (min_le_calculateNewSize cfg t.quantity r
                  ra.portfolio_risk)
              have habs : |calculateNewSize cfg t.quantity r
                  ra.portfolio_risk| ≤ |t.quantity| := by
                rw [abs_of_nonneg hge, abs_of_nonneg (hmin.trans hq)]
                exact hle
              exact add_le_add habs
                (ih rest hrest fun u hu => hfloor u (List.mem_cons_of_mem t hu))

theorem calcNewSize_10_eval :
    calculateNewSize resizeCfg 10 (1/25) (1/10) = 50 := by
  have hraw : rawNewSize resizeCfg 10 (1/25) (1/10) = 10 := by
    simp only [rawNewSize, resizeCfg]
    norm_num
  unfold calculateNewSize
  rw [hraw, max_eq_right (by norm_num [resizeCfg])]
  norm_num [resizeCfg]

theorem calcNewSize_10_eval' :
    calculateNewSize resizeCfg 10 ((25 : ℚ))⁻¹ ((10 : ℚ))⁻¹ = 50 := by
  rw [← one_div, ← one_div]
  exact calcNewSize_10_eval

theorem calcNewSize_60_eval :
    calculateNewSize resizeCfg 60 (1/25) (1/10) = 60 := by
  have hraw : rawNewSize resizeCfg 60 (1/25) (1/10) = 60 := by
    simp only [rawNewSize, resizeCfg]
    norm_num
  unfold calculateNewSize
  rw [hraw, max_eq_left (by norm_num [resizeCfg])]

theorem calcNewSize_60_eval' :
    calculateNewSize resizeCfg 60 ((25 : ℚ))⁻¹ ((10 : ℚ))⁻¹ = 60 := by
  rw [← one_div, ← one_div]
  exact calcNewSize_60_eval

theorem resizeSmall_eval :
    resizePositions resizeCfg raSmall propSmall =
      some ⟨[⟨"AAPL", 50, Side.buy⟩], 1, "s"⟩ := by
  simp [resizePositions, resizeTrades, getPositionRisk, raSmall, propSmall,
    calcNewSize_10_eval']

theorem resize60_eval :
    resizePositions resizeCfg raSmall ⟨[⟨"AAPL", 60, Side.buy⟩], 1, "w"⟩ =
      some ⟨[⟨"AAPL", 60, Side.buy⟩], 1, "w"⟩ := by
  simp [resizePositions, resizeTrades, getPositionRisk, raSmall,
    calcNewSize_60_eval']

/-- C4 counterexample: an adjustment iteration of the risk loop on a
non-accepted assessment (VaR above its limit) resizes a 10-share
position to the 50-share `min_position_size` floor, increasing the total
absolute proposed quantity from 10 to 50: the loop can grow positions. -/
theorem riskLoop_iteration_grows_position :
    isRiskAcceptable tolB raSmall = false ∧
    resizePositions resizeCfg raSmall propSmall =
      some ⟨[⟨"AAPL", 50, Side.buy⟩], 1, "s"⟩ ∧
    totalAbsQuantity propSmall = 10 ∧
    totalAbsQuantity ⟨[⟨"AAPL", 50, Side.buy⟩], 1, "s"⟩ = 50 ∧
    ¬((50 : ℤ) ≤ 10) := by
  refine ⟨?_, resizeSmall_eval, by simp [totalAbsQuantity, propSmall],
    by simp [totalAbsQuantity], by norm_num⟩
  simp [isRiskAcceptable, raSmall, tolB, RiskAssessment.maxPositionRisk]
  norm_num

/-- C4 amended: within the risk loop, an iteration's total absolute
proposed quantity is bounded by the previous iteration's provided every
position's previous quantity is at least `min_position_size` (and the
risk limits and floor are nonnegative); without that proviso
`_calculate_new_size`'s `max(new_size, min_position_size)` floor can
grow a position up to `min_position_size`. -/
theorem resizing_monotone_above_floor (cfg : ResizeConfig)
    (ra : RiskAssessment) (p p' : TradeProposal)
    (hpos : 0 ≤ cfg.max_position_risk) (hport : 0 ≤ cfg.max_portfolio_risk)
    (hmin : 0 ≤ cfg.min_position_size)
    (hfloor : ∀ t ∈ p.trades, cfg.min_position_size ≤ t.quantity)
    (h : resizePositions cfg ra p = some p') :
    totalAbsQuantity p' ≤ totalAbsQuantity p := by
  unfold resizePositions at h
  cases hres : resizeTrades cfg ra p.trades with
  | none => rw [hres] at h; simp at h
  | some ts' =>
      rw [hres] at h
      simp only [Option.map_some', Option.some.injEq] at h
      subst h
      exact resizeTrades_sum_le cfg ra hpos hport hmin p.trades ts' hres hfloor

theorem resizing_monotone_above_floor_witness :
    ((0 : ℚ) ≤ resizeCfg.max_position_risk) ∧
    ((0 : ℚ) ≤ resizeCfg.max_portfolio_risk) ∧
    ((0 : ℤ) ≤ resizeCfg.min_position_size) ∧
    (∀ t ∈ (TradeProposal.mk [⟨"AAPL", 60, Side.buy⟩] 1 "w").trades,
      resizeCfg.min_position_size ≤ t.quantity) ∧
    resizePositions resizeCfg raSmall ⟨[⟨"AAPL", 60, Side.buy⟩], 1, "w"⟩ =
      some ⟨[⟨"AAPL", 60, Side.buy⟩], 1, "w"⟩ ∧
    totalAbsQuantity ⟨[⟨"AAPL", 60, Side.buy⟩], 1, "w"⟩ ≤
      totalAbsQuantity ⟨[⟨"AAPL", 60, Side.buy⟩], 1, "w"⟩ := by
  have h1 : (0 : ℚ) ≤ resizeCfg.max_position_risk := by norm_num [resizeCfg]
  have h2 : (0 : ℚ) ≤ resizeCfg.max_portfolio_risk := by norm_num [resizeCfg]
  have h3 : (0 : ℤ) ≤ resizeCfg.min_position_size := by norm_num [resizeCfg]
  have h4 : ∀ t ∈ (TradeProposal.mk [⟨"AAPL", 60, Side.buy⟩] 1 "w").trades,
      resizeCfg.min_position_size ≤ t.quantity := by
    intro t ht
    simp only [List.mem_singleton] at ht
    subst ht
    norm_num [resizeCfg]
  exact ⟨h1, h2, h3, h4, resize60_eval,
    resizing_monotone_above_floor resizeCfg raSmall _ _ h1 h2 h3 h4
      resize60_eval⟩

/-- C5 counterexample: a candidate position whose computed size (10
shares, below the 50-share `min_position_size`) is not removed from the
proposal: `_calculate_new_size` floors it up to exactly
`min_position_size` and `resize_positions` keeps the trade. -/
theorem position_below_min_floored_not_dropped :
    rawNewSize resizeCfg 10 (1/25) (1/10) = 10 ∧
    (10 : ℤ) < resizeCfg.min_position_size ∧
    calculateNewSize resizeCfg 10 (1/25) (1/10) =
      resizeCfg.min_position_size ∧
    (resizePositions resizeCfg raSmall propSmall).map
      (fun q => q.trades.map Trade.symbol) = some ["AAPL"] := by
  refine ⟨?_, by norm_num [resizeCfg], ?_, ?_⟩
  · simp only [rawNewSize, resizeCfg]
    norm_num
  · rw [calcNewSize_10_eval]
    norm_num [resizeCfg]
  · rw [resizeSmall_eval]
    simp

/-- C5 amended: in the resizing code a computed size below
`min_position_size` is floored up to exactly `min_position_size` (via
`max(new_size, min_position_size)`), not removed: `resize_positions`
preserves the trade count and every resized quantity is at least
`min_position_size`. -/
theorem resizing_keeps_and_floors_small_positions (cfg : ResizeConfig)
    (ra : RiskAssessment) (p p' : TradeProposal)
    (h : resizePositions cfg ra p = some p') :
    (∀ (q : ℤ) (pr por : ℚ),
      rawNewSize cfg q pr por < cfg.min_position_size →
      calculateNewSize cfg q pr por = cfg.min_position_size) ∧
    p'.trades.length = p.trades.length ∧
    (∀ t ∈ p'.trades, cfg.min_position_size ≤ t.quantity) := by
  unfold resizePositions at h
  cases hres : resizeTrades cfg ra p.trades with
  | none => rw [hres] at h; simp at h
  | some ts' =>
      rw [hres] at h
      simp only [Option.map_some', Option.some.injEq] at h
      subst h
      refine ⟨fun q pr por hlt => max_eq_right hlt.le, ?_, ?_⟩
      · exact resizeTrades_length cfg ra p.trades ts' hres
      · exact resizeTrades_min_bound cfg ra p.trades ts' hres

theorem resizing_keeps_and_floors_small_positions_witness :
    resizePositions resizeCfg raSmall propSmall =
      some ⟨[⟨"AAPL", 50, Side.buy⟩], 1, "s"⟩ ∧
    (TradeProposal.mk [⟨"AAPL", 50, Side.buy⟩] 1 "s").trades.length =
      propSmall.trades.length ∧
    (∀ t ∈ (TradeProposal.mk [⟨"AAPL", 50, Side.buy⟩] 1 "s").trades,
      resizeCfg.min_position_size ≤ t.quantity) := by
  refine ⟨resizeSmall_eval, ?_, ?_⟩
  · exact (resizing_keeps_and_floors_small_positions resizeCfg raSmall
      propSmall _ resizeSmall_eval).2.1
  · exact (resizing_keeps_and_floors_small_positions resizeCfg raSmall
      propSmall _ resizeSmall_eval).2.2

/-! Execution-rules fixtures. -/

/-- Execution-rules configuration: MARKET default, DAY time-in-force,
1% price threshold, 0.5% market-impact limit. -/
def cfgE : ExecutionRulesConfig := ⟨OrderType.market, TimeInForce.day, 1/100, 1/200⟩

/-- A one-trade proposal selling 30 shares. -/
def propE : TradeProposal := ⟨[⟨"AAPL", -30, Side.sell⟩], 1, "e"⟩

/-- The order produced for `propE` under `cfgE` with zero impact. -/
def orderE : Order := ⟨"AAPL", 30, Side.sell, OrderType.market, none, TimeInForce.day⟩

/-- Reference prices: 150 for every symbol. -/
def priceE : String → ℚ := fun _ => 150

/-- Impact coefficients: zero for every symbol. -/
def impactE : String → ℚ := fun _ => 0

theorem applyRulesTradeE_eval :
    applyRulesTrade cfgE priceE impactE ⟨"AAPL", -30, Side.sell⟩ =
      some orderE := by
  unfold applyRulesTrade
  rw [if_neg (by decide)]
  rw [if_neg (by norm_num [cfgE, impactE])]
  simp [cfgE, orderE]

theorem applyRulesE_eval : applyRules cfgE priceE impactE propE = [orderE] := by
  simp [applyRules, propE, applyRulesTradeE_eval]

/-- C7: every order emitted by `ExecutionRulesAgent.apply_rules` has
quantity strictly greater than zero, and a `ProposedTrade` whose
quantity was scaled away to zero produces no order at all. -/
theorem applyRules_orders_positive (cfg : ExecutionRulesConfig)
    (refPrice impact : String → ℚ) (p : TradeProposal) :
    (∀ o ∈ applyRules cfg refPrice impact p, 0 < o.quantity) ∧
    (∀ (t : Trade) (ts : List Trade) (c : ℚ) (r : String), t.quantity = 0 →
      applyRules cfg refPrice impact ⟨t :: ts, c, r⟩ =
        applyRules cfg refPrice impact ⟨ts, c, r⟩) := by
  constructor
  · intro o ho
    rcases List.mem_filterMap.mp ho with ⟨t, _, hsome⟩
    unfold applyRulesTrade at hsome
    by_cases hz : t.quantity = 0
    · rw [if_pos hz] at hsome
      exact absurd hsome (by simp)
    · rw [if_neg hz] at hsome
      have habs : 0 < |t.quantity| := abs_pos.mpr hz
      split at hsome <;>
        (simp only [Option.some.injEq] at hsome; subst hsome;
          simpa using habs)
  · intro t ts c r hz
    unfold applyRules
    simp [applyRulesTrade, hz]

theorem applyRules_orders_positive_witness :
    orderE ∈ applyRules cfgE priceE impactE propE ∧ 0 < orderE.quantity := by
  have hmem : orderE ∈ applyRules cfgE priceE impactE propE := by
    rw [applyRulesE_eval]
    exact List.mem_singleton.mpr rfl
  exact ⟨hmem,
    (applyRules_orders_positive cfgE priceE impactE propE).1 orderE hmem⟩

/-- C3: in `TradeExecutionOrchestrator.execute_trades` a stage failure
aborts the whole cycle: an errored cycle emits no orders at all, a
successful cycle returns exactly a complete `apply_rules` result for the
final proposal (never a prefix), and an error in the risk stage
propagates to the caller as the cycle result. -/
theorem executeTrades_all_or_nothing {e s Adj : Type}
    (propose : s → Except e TradeProposal)
    (riskProcess : TradeProposal → s → Except e TradeProposal)
    (analyzeCorr : TradeProposal → s → Except e Adj)
    (corrAdjust : TradeProposal → Adj → Except e TradeProposal)
    (applyRulesStage : TradeProposal → s → Except e (List Order))
    (st : s) :
    (∀ err, executeTrades propose riskProcess analyzeCorr corrAdjust
        applyRulesStage st = Except.error err →
      emittedOrders (executeTrades propose riskProcess analyzeCorr corrAdjust
        applyRulesStage st) = []) ∧
    (∀ l, executeTrades propose riskProcess analyzeCorr corrAdjust
        applyRulesStage st = Except.ok l →
      ∃ fp, applyRulesStage fp st = Except.ok l) ∧
    (∀ p err, propose st = Except.ok p →
      riskProcess p st = Except.error err →
      executeTrades propose riskProcess analyzeCorr corrAdjust
        applyRulesStage st = Except.error err) := by
  refine ⟨?_, ?_, ?_⟩
  · intro err he
    rw [he]
    rfl
  · intro l hl
    unfold executeTrades at hl
    split at hl
    · simp at hl
    · split at hl
      · simp at hl
      · split at hl
        · simp at hl
        · split at hl
          · simp at hl
          · exact ⟨_, hl⟩
  · intro p err h1 h2
    simp [executeTrades, h1, h2]

theorem executeTrades_all_or_nothing_witness :
    ((fun _ : Unit => (Except.ok propB : Except String TradeProposal)) () =
      Except.ok propB) ∧
    ((fun (_ : TradeProposal) (_ : Unit) =>
        (Except.error "risk stage failed" : Except String TradeProposal))
        propB () = Except.error "risk stage failed") ∧
    executeTrades
      (fun _ : Unit => (Except.ok propB : Except String TradeProposal))
      (fun _ _ => Except.error "risk stage failed")
      (fun _ _ => (Except.ok 0 : Except String ℕ))
      (fun q _ => Except.ok q)
      (fun _ _ => Except.ok ([] : List Order)) () =
      Except.error "risk stage failed" := by
  refine ⟨rfl, rfl, ?_⟩
  exact (executeTrades_all_or_nothing
    (fun _ : Unit => (Except.ok propB : Except String TradeProposal))
    (fun _ _ => Except.error "risk stage failed")
    (fun _ _ => (Except.ok 0 : Except String ℕ))
    (fun q _ => Except.ok q)
    (fun _ _ => Except.ok ([] : List Order)) ()).2.2 propB
    "risk stage failed" rfl rfl

/-! Correlation-stage lemmas and fixtures. -/

theorem mem_symbolPairs {a b : String} :
    ∀ l : List String, (a, b) ∈ symbolPairs l → a ∈ l ∧ b ∈ l := by
  intro l
  induction l with
  | nil => intro h; simp [symbolPairs] at h
  | cons s rest ih =>
      intro h
      simp only [symbolPairs, List.mem_append, List.mem_map] at h
      rcases h with ⟨t, ht, heq⟩ | h
      · rw [Prod.mk.injEq] at heq
        obtain ⟨rfl, rfl⟩ := heq
        exact ⟨List.mem_cons_self _ rest, List.mem_cons_of_mem _ ht⟩
      · rcases ih h with ⟨ha, hb⟩
        exact ⟨List.mem_cons_of_mem s ha, List.mem_cons_of_mem s hb⟩

theorem symbolPairs_nodup :
    ∀ l : List String, l.Nodup → (symbolPairs l).Nodup := by
  intro l
  induction l with
  | nil => intro _; simp [symbolPairs]
  | cons s rest ih =>
      intro h
      rcases List.nodup_cons.mp h with ⟨hs, hrest⟩
      simp only [symbolPairs]
      refine List.Nodup.append ?_ (ih hrest) ?_
      · refine hrest.map ?_
        intro x y hxy
        simpa using hxy
      · intro x hx1 hx2
        rcases List.mem_map.mp hx1 with ⟨t, _, rfl⟩
        exact hs (mem_symbolPairs rest hx2).1

theorem filterMap_all_none {α β : Type} (f : α → Option β) :
    ∀ l : List α, (∀ x ∈ l, f x = none) → l.filterMap f = [] := by
  intro l
  induction l with
  | nil => intro _; rfl
  | cons x l ih =>
      intro h
      simp [List.filterMap_cons, h x (List.mem_cons_self x l),
        ih fun u hu => h u (List.mem_cons_of_mem x hu)]

theorem filterMap_eq_single {α β : Type} (f : α → Option β) :
    ∀ (l : List α) (a : α) (b : β), l.Nodup → a ∈ l → f a = some b →
      (∀ x ∈ l, x ≠ a → f x = none) → l.filterMap f = [b] := by
  intro l
  induction l with
  | nil => intro a b _ ha; simp at ha
  | cons x l ih =>
      intro a b hnd ha hfa hothers
      rcases List.nodup_cons.mp hnd with ⟨hx, hl⟩
      rcases List.mem_cons.mp ha with rfl | ha
      · have hrest : l.filterMap f = [] := by
          apply filterMap_all_none
          intro u hu
          refine hothers u (List.mem_cons_of_mem _ hu) ?_
          intro he
          exact hx (he ▸ hu)
        simp [List.filterMap_cons, hfa, hrest]
      · have hne : x ≠ a := by
          intro he
          exact hx (he ▸ ha)
        have hfx : f x = none := hothers x (List.mem_cons_self x l) hne
        simp only [List.filterMap_cons, hfx]
        exact ih a b hl ha hfa
          fun u hu hua => hothers u (List.mem_cons_of_mem x hu) hua

theorem corrFactor_of_match {v : String} {f : ℚ} {s : String} (h : s = v) :
    ((([(v, f)] : List (String × ℚ)).filter fun a => a.1 = s).map
      Prod.snd).prod = f := by
  subst h
  simp

theorem corrFactor_of_mismatch {v : String} {f : ℚ} {s : String}
    (h : ¬s = v) :
    ((([(v, f)] : List (String × ℚ)).filter fun a => a.1 = s).map
      Prod.snd).prod = 1 := by
  have h' : ¬v = s := fun he => h he.symm
  simp [List.filter, h']

/-- C8: when exactly one pair of proposal symbols breaches the
correlation limit and the two legs have unequal confidence,
`analyze_correlations` records exactly one adjustment — the
`adjustment_factor` for the smaller-confidence leg — and
`adjust_trades` scales that leg's quantity by the factor exactly once
while leaving the higher-confidence leg and every other trade
unchanged. -/
theorem correlation_single_pair_scales_once (cfg : CorrelationConfig)
    (corr : String → String → ℚ) (conf : String → ℚ) (p : TradeProposal)
    (a b : String)
    (hnodup : (p.trades.map Trade.symbol).Nodup)
    (hmem : (a, b) ∈ symbolPairs (p.trades.map Trade.symbol))
    (hbr : cfg.max_correlation < |corr a b|)
    (honly : ∀ x y, (x, y) ∈ symbolPairs (p.trades.map Trade.symbol) →
      (x, y) ≠ (a, b) → |corr x y| ≤ cfg.max_correlation)
    (hconf : conf a ≠ conf b) :
    analyzeCorrelations cfg corr conf p =
      [(scaledLeg conf (qtyOf p) a b, cfg.adjustment_factor)] ∧
    ((scaledLeg conf (qtyOf p) a b = a ∧ conf a < conf b) ∨
     (scaledLeg conf (qtyOf p) a b = b ∧ conf b < conf a)) ∧
    corrAdjustTrades p (analyzeCorrelations cfg corr conf p) =
      { p with trades := p.trades.map fun t =>
          if t.symbol = scaledLeg conf (qtyOf p) a b then
            { t with quantity :=
                truncQ ((t.quantity : ℚ) * cfg.adjustment_factor) }
          else t } := by
  have h1 : analyzeCorrelations cfg corr conf p =
      [(scaledLeg conf (qtyOf p) a b, cfg.adjustment_factor)] := by
    unfold analyzeCorrelations
    refine filterMap_eq_single _ _ (a, b) _
      (symbolPairs_nodup _ hnodup) hmem ?_ ?_
    · rw [if_pos hbr]
    · intro x hx hne
      rw [if_neg (not_lt.mpr (honly x.1 x.2 hx hne))]
  have h2 : (scaledLeg conf (qtyOf p) a b = a ∧ conf a < conf b) ∨
      (scaledLeg conf (qtyOf p) a b = b ∧ conf b < conf a) := by
    unfold scaledLeg
    rcases lt_or_gt_of_ne hconf with h | h
    · rw [if_pos h]
      exact Or.inl ⟨rfl, h⟩
    · rw [if_neg (asymm h), if_pos h]
      exact Or.inr ⟨rfl, h⟩
  refine ⟨h1, h2, ?_⟩
  rw [h1]
  unfold corrAdjustTrades
  congr 1
  apply List.map_congr_left
  intro t _
  by_cases ht : t.symbol = scaledLeg conf (qtyOf p) a b
  · rw [corrFactor_of_match ht, if_pos ht]
  · rw [corrFactor_of_mismatch ht, mul_one, truncQ_intCast, if_neg ht]

/-- Correlation configuration: limit 0.7, halving factor. -/
def ccfg : CorrelationConfig := ⟨7/10, 1/2⟩

/-- Scenario C proposal: buy 40 AAPL, sell 30 MSFT. -/
def propC : TradeProposal :=
  ⟨[⟨"AAPL", 40, Side.buy⟩, ⟨"MSFT", 30, Side.sell⟩], 7/10, "corr"⟩

/-- Per-symbol confidences: AAPL 0.6 (smaller), anything else 0.8. -/
def confC : String → ℚ := fun s => if s = "AAPL" then 3/5 else 4/5

/-- Correlations: 1 on the diagonal, 0.8 across. -/
def corrC : String → String → ℚ := fun s t => if s = t then 1 else 4/5

theorem correlation_single_pair_scales_once_witness :
    ((propC.trades.map Trade.symbol).Nodup) ∧
    (("AAPL", "MSFT") ∈ symbolPairs (propC.trades.map Trade.symbol)) ∧
    (ccfg.max_correlation < |corrC "AAPL" "MSFT"|) ∧
    (∀ x y, (x, y) ∈ symbolPairs (propC.trades.map Trade.symbol) →
      (x, y) ≠ ("AAPL", "MSFT") → |corrC x y| ≤ ccfg.max_correlation) ∧
    (confC "AAPL" ≠ confC "MSFT") ∧
    corrAdjustTrades propC (analyzeCorrelations ccfg corrC confC propC) =
      { propC with trades := propC.trades.map fun t =>
          if t.symbol = scaledLeg confC (qtyOf propC) "AAPL" "MSFT" then
            { t with quantity :=
                truncQ ((t.quantity : ℚ) * ccfg.adjustment_factor) }
          else t } := by
  have hnodup : (propC.trades.map Trade.symbol).Nodup := by
    simp [propC]
  have hmem : ("AAPL", "MSFT") ∈ symbolPairs (propC.trades.map Trade.symbol) := by
    simp [propC, symbolPairs]
  have hbr : ccfg.max_correlation < |corrC "AAPL" "MSFT"| := by
    simp only [ccfg, corrC]
    rw [if_neg (by decide), abs_of_nonneg (by norm_num)]
    norm_num
  have honly : ∀ x y, (x, y) ∈ symbolPairs (propC.trades.map Trade.symbol) →
      (x, y) ≠ ("AAPL", "MSFT") → |corrC x y| ≤ ccfg.max_correlation := by
    intro x y hxy hne
    simp [propC, symbolPairs] at hxy
    exact absurd (by simp [hxy.1, hxy.2]) hne
  have hconf : confC "AAPL" ≠ confC "MSFT" := by
    have e1 : confC "AAPL" = 3/5 := by simp [confC]
    have e2 : confC "MSFT" = 4/5 := by
      simp only [confC]
      rw [if_neg (by decide)]
    rw [e1, e2]
    norm_num
  exact ⟨hnodup, hmem, hbr, honly, hconf,
    (correlation_single_pair_scales_once ccfg corrC confC propC "AAPL" "MSFT"
      hnodup hmem hbr honly hconf).2.2⟩

theorem sampleBar_usage_iff_witness :
    mainStep ["node", "SampleBar.js", "sys", "user", "pw"] =
      MainAction.usage ∧
    attemptsConnection
      (mainStep ["node", "SampleBar.js", "sys", "user", "pw"]) = false := by
  have h := sampleBar_usage_iff ["node", "SampleBar.js", "sys", "user", "pw"]
  refine ⟨h.1.mpr (by norm_num), ?_⟩
  have h2 := h.2
  rcases hc : attemptsConnection
      (mainStep ["node", "SampleBar.js", "sys", "user", "pw"]) with _ | _
  · rfl
  · exact absurd (h2.mp hc) (by norm_num)

end AlgoTrading
